import Mathlib

/-!
Verification of the DenoKVStore cookie store (src/store.ts), a tough-cookie
`Store` implementation backed by Deno KV.

The embedding models the Deno KV engine as an association list from keys
(lists of string segments) to stored values, and the tough-cookie Cookie
Codec (serialization plus the RFC matching primitives) as follows: `toJSON`
is the abstract constructor `SerVal.enc`, `Cookie.fromJSON` inverts it and
fails on anything else, `pathMatch` is the RFC 6265 §5.1.4 algorithm, and
`permuteDomain` is kept abstract (a function parameter), since only the
shape of its result matters to the store.
-/

/-- A cookie, as far as this store inspects it: the identifying
`domain`/`path`/`key` fields (nullable in tough-cookie) plus an opaque
`value` field standing for all remaining RFC attributes, which the store
round-trips through the codec untouched. -/
structure Cookie where
  domain : Option String
  path : Option String
  key : Option String
  value : String
deriving DecidableEq

/-- A value stored in Deno KV under this store's namespace. `enc c` models
`c.toJSON()`, the serialized form of cookie `c` (the Cookie Codec is an
external collaborator, so encoding is abstract); `junk` models a truthy
stored record that `Cookie.fromJSON` cannot reconstruct into a cookie;
`nullish` models a falsy stored value (for example a literal `null`), which
the JS truthiness guards skip before ever decoding. -/
inductive SerVal where
  | enc (c : Cookie)
  | junk
  | nullish
deriving DecidableEq

instance : Inhabited Cookie := ⟨⟨none, none, none, ""⟩⟩

instance : Inhabited SerVal := ⟨SerVal.junk⟩

/-- JS truthiness of a stored value: objects are truthy, `null` is falsy. -/
def SerVal.truthy : SerVal → Bool
  | .nullish => false
  | _ => true

/-- The codec's `Cookie.fromJSON`: decodes the serialized form of `c` back
to `c`, and yields nothing on any other stored value. -/
def Cookie.fromJSON : SerVal → Option Cookie
  | .enc c => some c
  | _ => none

/-- A Deno KV key: an ordered tuple of string segments. -/
abbrev Key := List String

/-- The Deno KV backing store, modelled as an association list from keys to
stored values. List order abstracts the engine's key order; no claim below
depends on iteration order. -/
abbrev Kv := List (Key × SerVal)

/-- Engine point read, `kv.get(k)`: a missing key reads back as a null
value (`none` here). -/
def kvGet (kv : Kv) (k : Key) : Option SerVal :=
  match kv with
  | [] => none
  | e :: es => if e.1 = k then some e.2 else kvGet es k

/-- Engine point write, `kv.set(k, v)`: replaces the record at `k` in
place when one exists, otherwise creates it. -/
def kvSet (kv : Kv) (k : Key) (v : SerVal) : Kv :=
  match kv with
  | [] => [(k, v)]
  | e :: es => if e.1 = k then (k, v) :: es else e :: kvSet es k v

/-- Engine point delete, `kv.delete(k)`: deleting a missing key succeeds
and changes nothing. -/
def kvDelete (kv : Kv) (k : Key) : Kv :=
  kv.filter (fun e => e.1 != k)

/-- Engine scan, `kv.list({ prefix: q })`: yields exactly the entries whose
key begins with the segment sequence `q`. -/
def kvList (kv : Kv) (q : Key) : List (Key × SerVal) :=
  kv.filter (fun e => q.isPrefixOf e.1)

/-- Modelled from the spec: tough-cookie's `pathMatch(reqPath, cookiePath)`
(the Cookie Codec collaborator, not part of this repository), the RFC 6265
§5.1.4 path-match algorithm: the two paths are identical, or the cookie
path is a leading part of the request path and either ends in a slash or is
followed by a slash in the request path. -/
def pathMatch (reqPath cookiePath : String) : Bool :=
  let r := reqPath.toList
  let c := cookiePath.toList
  if c = r then true
  else if c.isPrefixOf r then
    if c.getLast? = some '/' then true
    else
      match r.get? c.length with
      | some ch => ch == '/'
      | none => false
  else false

/-- How the concrete-path branch of `findCookies` reads the stored path
back out of an entry key: `entry.key.slice(ns.length)[1].toString()`, the
path segment of a `[domain, path, name]` key. (On a key with fewer than
two segments past the namespace the source would throw; the model
totalizes that case, unreachable on well-formed states, with `""`.) -/
def cookiePathOf (ns : Key) (k : Key) : String :=
  ((k.drop ns.length).get? 1).getD ""

/-- One step of the `findCookies` matcher loops: run the entry through the
selected guard-plus-decode (`sel`) and push the cookie when it yields one. -/
def pushStep (sel : Key × SerVal → Option Cookie) (acc : List Cookie)
    (e : Key × SerVal) : List Cookie :=
  match sel e with
  | some c => acc ++ [c]
  | none => acc

/-- The `matchAll` matcher of `findCookies` (null request path): any truthy
entry that decodes is taken. -/
def matchAllEntry (e : Key × SerVal) : Option Cookie :=
  if e.2.truthy then Cookie.fromJSON e.2 else none

/-- The path-filtering matcher of `findCookies` (concrete request path):
a truthy entry whose stored path path-matches the request path is taken,
when it decodes. -/
def pathEntry (ns : Key) (p : String) (e : Key × SerVal) : Option Cookie :=
  if e.2.truthy && pathMatch p (cookiePathOf ns e.1) then Cookie.fromJSON e.2
  else none

/-- `findCookie(domain, path, key)` instrumented with the engine reads it
performs (second component): when any argument is null it resolves
`undefined` without touching the engine; otherwise it performs exactly one
point get at `ns ++ [domain, path, key]` and decodes a truthy result. -/
def findCookieRun (kv : Kv) (ns : Key) (domain path key : Option String) :
    Option Cookie × List Key :=
  match domain, path, key with
  | some d, some p, some k =>
    (match kvGet kv (ns ++ [d, p, k]) with
     | some v => if v.truthy then Cookie.fromJSON v else none
     | none => none,
     [ns ++ [d, p, k]])
  | _, _, _ => (none, [])

/-- `findCookie` as the caller sees it: the resolved value only. -/
def findCookie (kv : Kv) (ns : Key) (domain path key : Option String) :
    Option Cookie :=
  (findCookieRun kv ns domain path key).1

/-- `findCookies(domain, path, allowSpecialUseDomain)` instrumented with
the list-scan regions it requests (second component). A null or empty
domain resolves `[]` with no engine call. Otherwise the candidate domains
are `permuteDomain(domain, allowSpecialUseDomain) || [domain]` — the
external tough-cookie expansion abstracted as the `permute` parameter,
`none` modelling a null return and so triggering the fallback — and one
scan of the region `ns ++ [curDomain]` runs per candidate, feeding the
shared `results` accumulator through the matcher chosen by `path`. -/
def findCookiesRun (permute : String → Bool → Option (List String))
    (kv : Kv) (ns : Key) (domain path : Option String) (allow : Bool) :
    List Cookie × List Key :=
  match domain with
  | none => ([], [])
  | some d =>
    if d = "" then ([], [])
    else
      match path with
      | none =>
        (((permute d allow).getD [d]).foldl
           (fun acc cd => (kvList kv (ns ++ [cd])).foldl
              (pushStep matchAllEntry) acc) [],
         ((permute d allow).getD [d]).map (fun cd => ns ++ [cd]))
      | some p =>
        (((permute d allow).getD [d]).foldl
           (fun acc cd => (kvList kv (ns ++ [cd])).foldl
              (pushStep (pathEntry ns p)) acc) [],
         ((permute d allow).getD [d]).map (fun cd => ns ++ [cd]))

/-- `findCookies` as the caller sees it: the resolved list only. -/
def findCookies (permute : String → Bool → Option (List String))
    (kv : Kv) (ns : Key) (domain path : Option String) (allow : Bool) :
    List Cookie :=
  (findCookiesRun permute kv ns domain path allow).1

/-- `getAllCookies()`: scan everything under the namespace, decode the
truthy entries, skip the rest. -/
def getAllCookies (kv : Kv) (ns : Key) : List Cookie :=
  (kvList kv ns).foldl (pushStep matchAllEntry) []

/-- `putCookie(cookie)`: a cookie missing `domain`, `path` or `key`
resolves without touching the engine; otherwise one point set of
`cookie.toJSON()` at the triple key. -/
def putCookie (kv : Kv) (ns : Key) (c : Cookie) : Kv :=
  match c.domain, c.path, c.key with
  | some d, some p, some k => kvSet kv (ns ++ [d, p, k]) (SerVal.enc c)
  | _, _, _ => kv

/-- `removeAllCookies()`: scan the namespace, then delete each scanned
key. -/
def removeAllCookies (kv : Kv) (ns : Key) : Kv :=
  (kvList kv ns).foldl (fun acc e => kvDelete acc e.1) kv

/-- `removeCookie(domain, path, key)`: one point delete at the triple
key. -/
def removeCookie (kv : Kv) (ns : Key) (d p k : String) : Kv :=
  kvDelete kv (ns ++ [d, p, k])

/-- `removeCookies(domain, path)`: scan the exact `ns ++ [domain, path]`
region, then delete each scanned key. -/
def removeCookies (kv : Kv) (ns : Key) (d p : String) : Kv :=
  (kvList kv (ns ++ [d, p])).foldl (fun acc e => kvDelete acc e.1) kv

/-- `updateCookie(_oldCookie, newCookie)`: the source delegates to
`putCookie(newCookie)`, ignoring the old cookie entirely. -/
def updateCookie (kv : Kv) (ns : Key) (_oldC newC : Cookie) : Kv :=
  putCookie kv ns newC

/-- The triple identity of a cookie, when complete. -/
def cookieTriple (c : Cookie) : Option (String × String × String) :=
  match c.domain, c.path, c.key with
  | some d, some p, some k => some (d, p, k)
  | _, _, _ => none

/-- The keys of a KV state. -/
def kvKeys (kv : Kv) : List Key := kv.map Prod.fst

/-- Engine invariant: at most one record per key. -/
abbrev KvDistinct (kv : Kv) : Prop := (kvKeys kv).Nodup

/-- Well-formedness of a state with respect to a namespace: every record
under the namespace sits at a full triple key `ns ++ [domain, path, name]`.
This is true of every state reachable through the store's own writes. -/
def WfKv (ns : Key) (kv : Kv) : Prop :=
  ∀ e ∈ kv, ns.isPrefixOf e.1 = true → ∃ d p n, e.1 = ns ++ [d, p, n]

/-- Entries whose stored value decodes back into a cookie. -/
def decodableEntry (e : Key × SerVal) : Bool :=
  match e.2 with
  | .enc _ => true
  | _ => false

-- Concrete fixtures used by the witness theorems below.

/-- The namespace used in the repository's tests. -/
def nsW : Key := ["cookies"]

/-- A concrete cookie fixture. -/
def cookieW : Cookie := ⟨some "example.com", some "/path", some "foo", "bar"⟩

/-- A second cookie fixture on a different path. -/
def cookieW2 : Cookie := ⟨some "example.com", some "/different", some "baz", "qux"⟩

/-- A third cookie fixture on a different domain. -/
def cookieW3 : Cookie := ⟨some "example.org", some "/path", some "qux", "quux"⟩

/-- A replacement for `cookieW` with a new value, same triple. -/
def cookieW' : Cookie := ⟨some "example.com", some "/path", some "foo", "updated"⟩

/-- A cookie fixture whose identifying fields are all the empty string. -/
def cookieWE : Cookie := ⟨some "", some "", some "", "emptiness"⟩

/-- A concrete KV state holding the three decodable fixtures. -/
def kvW : Kv :=
  [(["cookies", "example.com", "/path", "foo"], SerVal.enc cookieW),
   (["cookies", "example.com", "/different", "baz"], SerVal.enc cookieW2),
   (["cookies", "example.org", "/path", "qux"], SerVal.enc cookieW3)]

/-- A concrete KV state that also holds an undecodable record. -/
def kvWJ : Kv :=
  (["cookies", "example.com", "/path", "zzz"], SerVal.junk) :: kvW

/-- A concrete domain expansion fixture: expansion yields the exact
domain only. -/
def permuteW : String → Bool → Option (List String) := fun d _ => some [d]

-- Basic engine lemmas.

theorem kvGet_kvSet_self (kv : Kv) (k : Key) (v : SerVal) :
    kvGet (kvSet kv k v) k = some v := by
  induction kv with
  | nil => simp [kvSet, kvGet]
  | cons e es ih =>
    by_cases h : e.1 = k
    · simp [kvSet, h, kvGet]
    · simp [kvSet, h, kvGet, ih]

theorem kvGet_kvSet_ne (kv : Kv) (k k' : Key) (v : SerVal) (h : k' ≠ k) :
    kvGet (kvSet kv k v) k' = kvGet kv k' := by
  induction kv with
  | nil => simp [kvSet, kvGet, Ne.symm h]
  | cons e es ih =>
    by_cases hek : e.1 = k
    · simp [kvSet, hek, kvGet, Ne.symm h]
    · by_cases hek' : e.1 = k'
      · simp [kvSet, hek, kvGet, hek', h]
      · simp [kvSet, hek, kvGet, hek', ih]

theorem mem_kvSet_of_ne (kv : Kv) (k : Key) (v : SerVal) (e : Key × SerVal)
    (he : e ∈ kv) (hne : e.1 ≠ k) : e ∈ kvSet kv k v := by
  induction kv with
  | nil => cases he
  | cons a as ih =>
    rcases List.mem_cons.mp he with rfl | hmem
    · by_cases h : e.1 = k
      · exact absurd h hne
      · simp [kvSet, h]
    · by_cases h : a.1 = k
      · simp [kvSet, h]
        exact Or.inr hmem
      · simp [kvSet, h]
        exact Or.inr (by simpa using ih hmem)

theorem mem_kvDelete (kv : Kv) (k : Key) (e : Key × SerVal) :
    e ∈ kvDelete kv k ↔ e ∈ kv ∧ e.1 ≠ k := by
  simp [kvDelete, List.mem_filter, bne_iff_ne]

theorem kvGet_kvDelete_self (kv : Kv) (k : Key) :
    kvGet (kvDelete kv k) k = none := by
  induction kv with
  | nil => rfl
  | cons a as ih =>
    by_cases h : a.1 = k
    · simpa [kvDelete, List.filter_cons, h] using ih
    · simpa [kvDelete, List.filter_cons, bne_iff_ne, h, kvGet] using ih

theorem kvDelete_eq_of_not_mem (kv : Kv) (k : Key) (h : k ∉ kvKeys kv) :
    kvDelete kv k = kv := by
  refine List.filter_eq_self.mpr ?_
  intro e he
  have : e.1 ≠ k := fun hk => h (hk ▸ List.mem_map_of_mem Prod.fst he)
  simpa [bne_iff_ne] using this

theorem mem_kvList (kv : Kv) (q : Key) (e : Key × SerVal) :
    e ∈ kvList kv q ↔ e ∈ kv ∧ q.isPrefixOf e.1 = true := by
  simp [kvList, List.mem_filter]

-- isPrefixOf facts for segment keys.

theorem isPrefixOf_append_self (l t : List String) :
    l.isPrefixOf (l ++ t) = true := by
  induction l with
  | nil => cases t <;> rfl
  | cons a as ih => simp [List.isPrefixOf, ih]

theorem isPrefixOf_append_iff (l a b : List String) :
    (l ++ a).isPrefixOf (l ++ b) = a.isPrefixOf b := by
  induction l with
  | nil => rfl
  | cons x xs ih => simp [List.isPrefixOf, ih]

theorem pair_isPrefixOf_triple_iff (a b x y z : String) :
    ([a, b].isPrefixOf [x, y, z] = true) ↔ (a = x ∧ b = y) := by
  simp [List.isPrefixOf]

theorem isPrefixOf_iff_exists (l : List String) :
    ∀ x : List String, l.isPrefixOf x = true ↔ ∃ t, x = l ++ t := by
  induction l with
  | nil => intro x; simp [List.isPrefixOf]
  | cons a as ih =>
    intro x
    cases x with
    | nil => simp [List.isPrefixOf]
    | cons b bs =>
      simp only [List.isPrefixOf, Bool.and_eq_true, beq_iff_eq, ih]
      constructor
      · rintro ⟨rfl, t, rfl⟩
        exact ⟨t, rfl⟩
      · rintro ⟨t, ht⟩
        injection ht with h1 h2
        exact ⟨h1.symm, t, h2⟩

theorem append_triple_inj (ns : Key) (a b c x y z : String)
    (h : ns ++ [a, b, c] = ns ++ [x, y, z]) : a = x ∧ b = y ∧ c = z := by
  have h2 : [a, b, c] = [x, y, z] := List.append_inj_right h rfl
  simpa using h2

-- Characterizing the accumulator loops of the scanning operations.

theorem foldl_pushStep_eq (sel : Key × SerVal → Option Cookie)
    (es : List (Key × SerVal)) :
    ∀ acc : List Cookie, es.foldl (pushStep sel) acc = acc ++ es.filterMap sel := by
  induction es with
  | nil => intro acc; simp
  | cons e es ih =>
    intro acc
    cases h : sel e with
    | none => simp [pushStep, h, ih, List.filterMap_cons]
    | some c => simp [pushStep, h, ih, List.filterMap_cons]

theorem mem_domainsFold (sel : Key × SerVal → Option Cookie) (kv : Kv)
    (ns : Key) (ds : List String) (c : Cookie) :
    ∀ acc : List Cookie,
      (c ∈ ds.foldl
          (fun a cd => (kvList kv (ns ++ [cd])).foldl (pushStep sel) a) acc ↔
        c ∈ acc ∨ ∃ cd ∈ ds, ∃ e ∈ kvList kv (ns ++ [cd]), sel e = some c) := by
  induction ds with
  | nil =>
    intro acc
    constructor
    · exact fun h => Or.inl h
    · rintro (h | ⟨cd, hcd, -⟩)
      · exact h
      · exact absurd hcd (List.not_mem_nil cd)
  | cons d ds ih =>
    intro acc
    rw [List.foldl_cons, ih, foldl_pushStep_eq]
    simp only [List.mem_append, List.mem_filterMap, List.mem_cons]
    constructor
    · rintro ((hacc | ⟨e, he, hsel⟩) | ⟨cd, hcd, e, he, hsel⟩)
      · exact Or.inl hacc
      · exact Or.inr ⟨d, Or.inl rfl, e, he, hsel⟩
      · exact Or.inr ⟨cd, Or.inr hcd, e, he, hsel⟩
    · rintro (hacc | ⟨cd, rfl | hcd, e, he, hsel⟩)
      · exact Or.inl (Or.inl hacc)
      · exact Or.inl (Or.inr ⟨e, he, hsel⟩)
      · exact Or.inr ⟨cd, hcd, e, he, hsel⟩

theorem domainsFold_eq_of_chunks (sel : Key × SerVal → Option Cookie)
    (kv kv' : Kv) (ns : Key)
    (h : ∀ cd : String,
      (kvList kv (ns ++ [cd])).filterMap sel
        = (kvList kv' (ns ++ [cd])).filterMap sel) :
    ∀ (ds : List String) (acc : List Cookie),
      ds.foldl (fun a cd => (kvList kv (ns ++ [cd])).foldl (pushStep sel) a) acc
        = ds.foldl
            (fun a cd => (kvList kv' (ns ++ [cd])).foldl (pushStep sel) a) acc := by
  intro ds
  induction ds with
  | nil => intro acc; rfl
  | cons x xs ih =>
    intro acc
    rw [List.foldl_cons, List.foldl_cons, foldl_pushStep_eq, foldl_pushStep_eq, h]
    exact ih _

theorem mem_foldl_kvDelete (S : List (Key × SerVal)) (e : Key × SerVal) :
    ∀ kv : Kv,
      (e ∈ S.foldl (fun acc x => kvDelete acc x.1) kv ↔
        e ∈ kv ∧ ∀ x ∈ S, e.1 ≠ x.1) := by
  induction S with
  | nil => intro kv; simp
  | cons a S ih =>
    intro kv
    rw [List.foldl_cons, ih, mem_kvDelete]
    constructor
    · rintro ⟨⟨he, hne⟩, hall⟩
      exact ⟨he, by
        intro x hx
        rcases List.mem_cons.mp hx with rfl | hx
        · exact hne
        · exact hall x hx⟩
    · rintro ⟨he, hall⟩
      exact ⟨⟨he, hall a (List.mem_cons_self a S)⟩,
        fun x hx => hall x (List.mem_cons_of_mem a hx)⟩

-- Characterizing the two findCookies matchers.

theorem matchAllEntry_eq_some (e : Key × SerVal) (c : Cookie) :
    matchAllEntry e = some c ↔ e.2 = SerVal.enc c := by
  rcases e with ⟨k, v⟩
  cases v <;> simp [matchAllEntry, SerVal.truthy, Cookie.fromJSON]

theorem matchAllEntry_none_of_not_decodable (e : Key × SerVal)
    (h : decodableEntry e = false) : matchAllEntry e = none := by
  rcases e with ⟨k, v⟩
  cases v <;> simp_all [decodableEntry, matchAllEntry, SerVal.truthy, Cookie.fromJSON]

theorem pathEntry_eq_some (ns : Key) (p : String) (e : Key × SerVal)
    (c : Cookie) :
    pathEntry ns p e = some c ↔
      e.2 = SerVal.enc c ∧ pathMatch p (cookiePathOf ns e.1) = true := by
  rcases e with ⟨k, v⟩
  by_cases hm : pathMatch p (cookiePathOf ns k) = true
  · cases v <;> simp [pathEntry, SerVal.truthy, Cookie.fromJSON, hm]
  · cases v <;> simp [pathEntry, SerVal.truthy, Cookie.fromJSON, hm]

theorem pathEntry_none_of_not_decodable (ns : Key) (p : String)
    (e : Key × SerVal) (h : decodableEntry e = false) : pathEntry ns p e = none := by
  rcases e with ⟨k, v⟩
  cases v with
  | enc c => simp [decodableEntry] at h
  | junk => simp [pathEntry, Cookie.fromJSON]
  | nullish => simp [pathEntry, SerVal.truthy]


-- The one-record-per-key invariant through the engine operations.

theorem kvDistinct_cons (a : Key × SerVal) (as : Kv) :
    KvDistinct (a :: as) ↔ a.1 ∉ kvKeys as ∧ KvDistinct as := by
  simp [KvDistinct, kvKeys, List.nodup_cons]

theorem mem_kvKeys_kvSet (kv : Kv) (k : Key) (v : SerVal) (x : Key)
    (h : x ∈ kvKeys (kvSet kv k v)) : x ∈ kvKeys kv ∨ x = k := by
  induction kv with
  | nil => simpa [kvSet, kvKeys] using h
  | cons a as ih =>
    by_cases hak : a.1 = k
    · rw [show kvSet (a :: as) k v = (k, v) :: as by simp [kvSet, hak]] at h
      rcases List.mem_cons.mp h with rfl | h2
      · exact Or.inr rfl
      · exact Or.inl (List.mem_cons_of_mem a.1 h2)
    · rw [show kvSet (a :: as) k v = a :: kvSet as k v by simp [kvSet, hak]] at h
      rcases List.mem_cons.mp h with rfl | h2
      · exact Or.inl (List.mem_cons_self _ _)
      · rcases ih h2 with h3 | h3
        · exact Or.inl (List.mem_cons_of_mem a.1 h3)
        · exact Or.inr h3

theorem kvDistinct_kvSet (kv : Kv) (k : Key) (v : SerVal)
    (h : KvDistinct kv) : KvDistinct (kvSet kv k v) := by
  induction kv with
  | nil => simp [kvSet, KvDistinct, kvKeys]
  | cons a as ih =>
    rcases (kvDistinct_cons a as).mp h with ⟨hna, hda⟩
    by_cases hak : a.1 = k
    · rw [show kvSet (a :: as) k v = (k, v) :: as by simp [kvSet, hak]]
      exact (kvDistinct_cons (k, v) as).mpr ⟨by simpa [hak] using hna, hda⟩
    · rw [show kvSet (a :: as) k v = a :: kvSet as k v by simp [kvSet, hak]]
      refine (kvDistinct_cons a (kvSet as k v)).mpr ⟨?_, ih hda⟩
      intro hmem
      rcases mem_kvKeys_kvSet as k v a.1 hmem with h2 | h2
      · exact hna h2
      · exact hak h2

theorem kvDistinct_kvDelete (kv : Kv) (k : Key)
    (h : KvDistinct kv) : KvDistinct (kvDelete kv k) := by
  have hsub : List.Sublist (kvKeys (kvDelete kv k)) (kvKeys kv) :=
    List.Sublist.map Prod.fst (List.filter_sublist kv)
  exact List.Nodup.sublist hsub h

theorem kvDistinct_foldl_kvDelete (S : List (Key × SerVal)) :
    ∀ kv : Kv, KvDistinct kv →
      KvDistinct (S.foldl (fun acc x => kvDelete acc x.1) kv) := by
  induction S with
  | nil => intro kv h; exact h
  | cons a S ih =>
    intro kv h
    exact ih (kvDelete kv a.1) (kvDistinct_kvDelete kv a.1 h)

-- Counting decodable records under a region across a replacing write and
-- a point delete.

theorem length_filterMap_cons_congr (f : Key × SerVal → Option Cookie)
    (a : Key × SerVal) (l l' : List (Key × SerVal))
    (h : (l.filterMap f).length = (l'.filterMap f).length) :
    ((a :: l).filterMap f).length = ((a :: l').filterMap f).length := by
  cases hsel : f a <;> simp [List.filterMap_cons, hsel, h]

theorem kvSet_enc_count (q k : Key) (c0 c' : Cookie) :
    ∀ kv : Kv, KvDistinct kv → (k, SerVal.enc c0) ∈ kv →
      ((kvList (kvSet kv k (SerVal.enc c')) q).filterMap matchAllEntry).length
        = ((kvList kv q).filterMap matchAllEntry).length := by
  intro kv
  induction kv with
  | nil => intro _ hmem; cases hmem
  | cons a as ih =>
    intro hdist hmem
    rcases (kvDistinct_cons a as).mp hdist with ⟨hna, hda⟩
    by_cases hak : a.1 = k
    · have ha : a = (k, SerVal.enc c0) := by
        rcases List.mem_cons.mp hmem with h | h
        · exact h.symm
        · exact absurd (hak ▸ List.mem_map_of_mem Prod.fst h) hna
      subst ha
      rw [show kvSet ((k, SerVal.enc c0) :: as) k (SerVal.enc c')
            = (k, SerVal.enc c') :: as by simp [kvSet]]
      simp only [kvList, List.filter_cons]
      by_cases hq : q.isPrefixOf k = true
      · simp [hq, List.filterMap_cons, matchAllEntry, SerVal.truthy,
          Cookie.fromJSON]
      · simp [hq]
    · have hmem' : (k, SerVal.enc c0) ∈ as := by
        rcases List.mem_cons.mp hmem with h | h
        · exact absurd (congrArg Prod.fst h.symm) hak
        · exact h
      have hrec := ih hda hmem'
      rw [show kvSet (a :: as) k (SerVal.enc c')
            = a :: kvSet as k (SerVal.enc c') by simp [kvSet, hak]]
      simp only [kvList, List.filter_cons] at hrec ⊢
      by_cases hq : q.isPrefixOf a.1 = true
      · simp only [hq, if_true]
        exact length_filterMap_cons_congr matchAllEntry a _ _ hrec
      · simp only [hq, if_false, Bool.false_eq_true]
        exact hrec

theorem kvDelete_enc_count (q k : Key) (c0 : Cookie)
    (hq : q.isPrefixOf k = true) :
    ∀ kv : Kv, KvDistinct kv → (k, SerVal.enc c0) ∈ kv →
      ((kvList (kvDelete kv k) q).filterMap matchAllEntry).length + 1
        = ((kvList kv q).filterMap matchAllEntry).length := by
  intro kv
  induction kv with
  | nil => intro _ hmem; cases hmem
  | cons a as ih =>
    intro hdist hmem
    rcases (kvDistinct_cons a as).mp hdist with ⟨hna, hda⟩
    by_cases hak : a.1 = k
    · have ha : a = (k, SerVal.enc c0) := by
        rcases List.mem_cons.mp hmem with h | h
        · exact h.symm
        · exact absurd (hak ▸ List.mem_map_of_mem Prod.fst h) hna
      subst ha
      have hdel : kvDelete ((k, SerVal.enc c0) :: as) k = as := by
        have h1 : kvDelete as k = as :=
          kvDelete_eq_of_not_mem as k (by simpa using hna)
        simpa [kvDelete, List.filter_cons] using h1
      rw [hdel]
      simp [kvList, List.filter_cons, hq, List.filterMap_cons, matchAllEntry,
        SerVal.truthy, Cookie.fromJSON]
    · have hmem' : (k, SerVal.enc c0) ∈ as := by
        rcases List.mem_cons.mp hmem with h | h
        · exact absurd (congrArg Prod.fst h.symm) hak
        · exact h
      have hrec := ih hda hmem'
      have hdel : kvDelete (a :: as) k = a :: kvDelete as k := by
        simp [kvDelete, List.filter_cons, bne_iff_ne, hak]
      rw [hdel]
      simp only [kvList, List.filter_cons] at hrec ⊢
      by_cases hqa : q.isPrefixOf a.1 = true
      · simp only [hqa, if_true]
        cases hsel : matchAllEntry a with
        | none => simpa [List.filterMap_cons, hsel] using hrec
        | some cc =>
          simp only [List.filterMap_cons, hsel, List.length_cons]
          omega
      · simp only [hqa, if_false, Bool.false_eq_true]
        exact hrec

-- putCookie and the triple identity.

theorem cookieTriple_eq_some_iff (c : Cookie) (d p n : String) :
    cookieTriple c = some (d, p, n) ↔
      c.domain = some d ∧ c.path = some p ∧ c.key = some n := by
  rcases c with ⟨cd, cp, ck, cv⟩
  cases cd <;> cases cp <;> cases ck <;> simp [cookieTriple]

theorem putCookie_of_triple_none (kv : Kv) (ns : Key) (c : Cookie)
    (h : cookieTriple c = none) : putCookie kv ns c = kv := by
  rcases c with ⟨cd, cp, ck, cv⟩
  cases cd <;> cases cp <;> cases ck <;> simp_all [cookieTriple, putCookie]

theorem putCookie_eq_kvSet (kv : Kv) (ns : Key) (c : Cookie) (d p n : String)
    (h : cookieTriple c = some (d, p, n)) :
    putCookie kv ns c = kvSet kv (ns ++ [d, p, n]) (SerVal.enc c) := by
  rcases (cookieTriple_eq_some_iff c d p n).mp h with ⟨hd, hp, hk⟩
  simp [putCookie, hd, hp, hk]

theorem kvDistinct_putCookie (kv : Kv) (ns : Key) (c : Cookie)
    (h : KvDistinct kv) : KvDistinct (putCookie kv ns c) := by
  cases htr : cookieTriple c with
  | none => rw [putCookie_of_triple_none kv ns c htr]; exact h
  | some t =>
    rw [putCookie_eq_kvSet kv ns c t.1 t.2.1 t.2.2 (by simpa using htr)]
    exact kvDistinct_kvSet _ _ _ h

theorem foldl_putCookie_get_of_ne (ns : Key) (d p n : String) :
    ∀ (cs : List Cookie) (kv : Kv),
      (∀ c' ∈ cs, cookieTriple c' ≠ some (d, p, n)) →
      kvGet (cs.foldl (fun acc c' => putCookie acc ns c') kv) (ns ++ [d, p, n])
        = kvGet kv (ns ++ [d, p, n]) := by
  intro cs
  induction cs with
  | nil => intro kv _; rfl
  | cons c cs ih =>
    intro kv hall
    rw [List.foldl_cons, ih _ (fun c' hc' => hall c' (List.mem_cons_of_mem c hc'))]
    cases htr : cookieTriple c with
    | none => rw [putCookie_of_triple_none kv ns c htr]
    | some t =>
      rcases t with ⟨d', p', n'⟩
      rw [putCookie_eq_kvSet kv ns c d' p' n' htr]
      refine kvGet_kvSet_ne kv _ _ _ ?_
      intro hkey
      rcases append_triple_inj ns d p n d' p' n' hkey with ⟨rfl, rfl, rfl⟩
      exact hall c (List.mem_cons_self c cs) htr

theorem foldl_putCookie_get (ns : Key) (cs : List Cookie)
    (hdist : cs.Pairwise (fun a b => cookieTriple a ≠ cookieTriple b)) :
    ∀ (kv : Kv) (c : Cookie) (d p n : String), c ∈ cs →
      cookieTriple c = some (d, p, n) →
      kvGet (cs.foldl (fun acc c' => putCookie acc ns c') kv) (ns ++ [d, p, n])
        = some (SerVal.enc c) := by
  induction cs with
  | nil => intro kv c d p n hc; cases hc
  | cons a cs ih =>
    intro kv c d p n hc htr
    rcases List.pairwise_cons.mp hdist with ⟨hhead, htail⟩
    rcases List.mem_cons.mp hc with rfl | hc2
    · rw [List.foldl_cons,
        foldl_putCookie_get_of_ne ns d p n cs (putCookie kv ns c)
          (fun c' hc' => fun hcontra => hhead c' hc' (htr.trans hcontra.symm)),
        putCookie_eq_kvSet kv ns c d p n htr]
      exact kvGet_kvSet_self kv _ _
    · exact ih htail (putCookie kv ns a) c d p n hc2 htr

-- Shape of the entries reached by a domain scan, and the stored path they
-- expose to the path matcher.

theorem cookiePathOf_triple (ns : Key) (a b c : String) :
    cookiePathOf ns (ns ++ [a, b, c]) = b := by
  simp [cookiePathOf, List.drop_left]

theorem kvList_entry_shape (kv : Kv) (ns : Key) (cd : String)
    (hwf : WfKv ns kv) (e : Key × SerVal) (he : e ∈ kvList kv (ns ++ [cd])) :
    ∃ cp n, e.1 = ns ++ [cd, cp, n] := by
  rcases (mem_kvList kv _ e).mp he with ⟨hekv, hpre⟩
  rcases (isPrefixOf_iff_exists (ns ++ [cd]) e.1).mp hpre with ⟨t, ht⟩
  have hns : ns.isPrefixOf e.1 = true := by
    rw [ht, List.append_assoc]
    exact isPrefixOf_append_self ns _
  rcases hwf e hekv hns with ⟨d0, p0, n0, hshape⟩
  have hcat : ns ++ ([cd] ++ t) = ns ++ [d0, p0, n0] := by
    rw [← List.append_assoc, ← ht, hshape]
  have h2 : [cd] ++ t = [d0, p0, n0] := List.append_inj_right hcat rfl
  have hcd0 : cd = d0 := by
    have := congrArg (fun l => l.head?) h2
    simpa using this
  have ht2 : t = [p0, n0] := by
    have := congrArg (fun l => l.tail) h2
    simpa using this
  exact ⟨p0, n0, by rw [hshape, hcd0]⟩

-- Removing the undecodable entries changes no scan result.

theorem filterMap_filter_of_none {α β : Type} (f : α → Option β)
    (p : α → Bool) (h : ∀ a, p a = false → f a = none) :
    ∀ l : List α, (l.filter p).filterMap f = l.filterMap f := by
  intro l
  induction l with
  | nil => rfl
  | cons a l ih =>
    cases hpa : p a with
    | true => simp [List.filter_cons, hpa, List.filterMap_cons, ih]
    | false => simp [List.filter_cons, hpa, List.filterMap_cons, h a hpa, ih]

theorem filterMap_filter_and {α β : Type} (f : α → Option β) (p q : α → Bool)
    (h : ∀ a, q a = false → f a = none) :
    ∀ l : List α,
      (l.filter (fun a => p a && q a)).filterMap f = (l.filter p).filterMap f := by
  intro l
  induction l with
  | nil => rfl
  | cons a l ih =>
    cases hp : p a with
    | false => simp [List.filter_cons, hp, ih]
    | true =>
      cases hq : q a with
      | true => simp [List.filter_cons, hp, hq, List.filterMap_cons, ih]
      | false => simp [List.filter_cons, hp, hq, List.filterMap_cons, h a hq, ih]

theorem filterMap_kvList_filter_dec (sel : Key × SerVal → Option Cookie)
    (hsel : ∀ e, decodableEntry e = false → sel e = none) (kv : Kv) (q : Key) :
    (kvList (kv.filter decodableEntry) q).filterMap sel
      = (kvList kv q).filterMap sel := by
  rw [kvList, kvList, List.filter_filter]
  exact filterMap_filter_and sel (fun e => q.isPrefixOf e.1) decodableEntry hsel kv

-- The claims.

/-- C7: `findCookie` with any absent argument resolves absent and performs
no engine call; otherwise it performs exactly one point lookup at the key
`ns ++ [domain, path, name]`, resolving absent when no record exists there
and the decoded cookie when a decodable record does, with no other record
consulted. -/
theorem findCookie_point_lookup (kv : Kv) (ns : Key) :
    (∀ path key, findCookieRun kv ns none path key = (none, [])) ∧
    (∀ domain key, findCookieRun kv ns domain none key = (none, [])) ∧
    (∀ domain path, findCookieRun kv ns domain path none = (none, [])) ∧
    (∀ d p k : String,
      (findCookieRun kv ns (some d) (some p) (some k)).2 = [ns ++ [d, p, k]] ∧
      (kvGet kv (ns ++ [d, p, k]) = none →
        (findCookieRun kv ns (some d) (some p) (some k)).1 = none) ∧
      (∀ c : Cookie, kvGet kv (ns ++ [d, p, k]) = some (SerVal.enc c) →
        (findCookieRun kv ns (some d) (some p) (some k)).1 = some c)) := by
  refine ⟨?_, ?_, ?_, ?_⟩
  · intro path key; cases path <;> cases key <;> rfl
  · intro domain key; cases domain <;> cases key <;> rfl
  · intro domain path; cases domain <;> cases path <;> rfl
  · intro d p k
    refine ⟨rfl, ?_, ?_⟩
    · intro h; simp [findCookieRun, h]
    · intro c h
      simp [findCookieRun, h, SerVal.truthy, Cookie.fromJSON]

/-- C7 witness: the lookup of the `foo` fixture in the concrete store. -/
theorem findCookie_point_lookup_w :
    kvGet kvW (nsW ++ ["example.com", "/path", "foo"])
      = some (SerVal.enc cookieW) ∧
    (findCookieRun kvW nsW
      (some "example.com") (some "/path") (some "foo")).1 = some cookieW :=
  ⟨by decide,
   ((findCookie_point_lookup kvW nsW).2.2.2 "example.com" "/path" "foo").2.2
     cookieW (by decide)⟩

/-- C2: an absent or empty domain makes `findCookies` resolve the empty
list with no engine scan; otherwise exactly one exact-domain region scan is
requested per candidate domain produced by domain expansion, and when
expansion yields nothing the candidates fall back to the exact request
domain alone. -/
theorem findCookies_scan_regions
    (permute : String → Bool → Option (List String)) (kv : Kv) (ns : Key)
    (path : Option String) (allow : Bool) :
    findCookiesRun permute kv ns none path allow = ([], []) ∧
    findCookiesRun permute kv ns (some "") path allow = ([], []) ∧
    (∀ d : String, d ≠ "" →
      (findCookiesRun permute kv ns (some d) path allow).2
        = ((permute d allow).getD [d]).map (fun cd => ns ++ [cd])) ∧
    (∀ d : String, d ≠ "" → permute d allow = none →
      (findCookiesRun permute kv ns (some d) path allow).2 = [ns ++ [d]]) := by
  refine ⟨?_, ?_, ?_, ?_⟩
  · cases path <;> rfl
  · cases path <;> simp [findCookiesRun]
  · intro d hd; cases path <;> simp [findCookiesRun, hd]
  · intro d hd hperm; cases path <;> simp [findCookiesRun, hd, hperm]

/-- C2 witness: a concrete non-empty domain, and the fallback behaviour of
an expansion that yields nothing. -/
theorem findCookies_scan_regions_w :
    ("example.com" ≠ ("" : String)) ∧
    (findCookiesRun permuteW kvW nsW (some "example.com")
        (some "/path") false).2
      = ((permuteW "example.com" false).getD ["example.com"]).map
          (fun cd => nsW ++ [cd]) ∧
    (findCookiesRun (fun _ _ => none) kvW nsW (some "example.com")
        (some "/path") false).2 = [nsW ++ ["example.com"]] :=
  ⟨by decide,
   (findCookies_scan_regions permuteW kvW nsW (some "/path") false).2.2.1
     "example.com" (by decide),
   (findCookies_scan_regions (fun _ _ => none) kvW nsW
     (some "/path") false).2.2.2 "example.com" (by decide) rfl⟩

/-- C3: after writing a list of cookies with complete identities and
pairwise distinct triples, `findCookie` on each written cookie's own triple
returns that cookie — a structural round-trip through the codec at the
triple key — from any starting state. -/
theorem putCookie_findCookie_roundtrip (ns : Key) (cs : List Cookie)
    (kv : Kv) (c : Cookie)
    (hall : ∀ c' ∈ cs, cookieTriple c' ≠ none)
    (hdist : cs.Pairwise (fun a b => cookieTriple a ≠ cookieTriple b))
    (hc : c ∈ cs) :
    findCookie (cs.foldl (fun acc c' => putCookie acc ns c') kv) ns
      c.domain c.path c.key = some c := by
  rcases Option.ne_none_iff_exists'.mp (hall c hc) with ⟨⟨d, p, n⟩, htr⟩
  rcases (cookieTriple_eq_some_iff c d p n).mp htr with ⟨hd, hp, hk⟩
  rw [hd, hp, hk]
  have hget := foldl_putCookie_get ns cs hdist kv c d p n hc htr
  simp [findCookie, findCookieRun, hget, SerVal.truthy, Cookie.fromJSON]

/-- C3 witness: writing the three distinct fixtures into an empty store and
reading the first one back. -/
theorem putCookie_findCookie_roundtrip_w :
    (∀ c' ∈ [cookieW, cookieW2, cookieW3], cookieTriple c' ≠ none) ∧
    List.Pairwise (fun a b => cookieTriple a ≠ cookieTriple b)
      [cookieW, cookieW2, cookieW3] ∧
    cookieW ∈ [cookieW, cookieW2, cookieW3] ∧
    findCookie
      ([cookieW, cookieW2, cookieW3].foldl
        (fun acc c' => putCookie acc nsW c') []) nsW
      cookieW.domain cookieW.path cookieW.key = some cookieW :=
  ⟨by decide, by decide, by decide,
   putCookie_findCookie_roundtrip nsW [cookieW, cookieW2, cookieW3] [] cookieW
     (by decide) (by decide) (by decide)⟩

/-- C4: the store keeps at most one record per (domain, path, name) triple
and every mutating operation preserves that invariant; writing a cookie
whose triple equals an existing record's triple replaces the record in
place, leaving the `getAllCookies` count unchanged and making `findCookie`
on the triple return the new value. -/
theorem putCookie_collision_replaces (ns : Key) (kv : Kv) (d p n : String)
    (c0 c' : Cookie) (hdist : KvDistinct kv)
    (hmem : (ns ++ [d, p, n], SerVal.enc c0) ∈ kv)
    (htr : cookieTriple c' = some (d, p, n)) :
    KvDistinct (putCookie kv ns c') ∧
    (getAllCookies (putCookie kv ns c') ns).length
      = (getAllCookies kv ns).length ∧
    findCookie (putCookie kv ns c') ns (some d) (some p) (some n) = some c' ∧
    (∀ kv2 : Kv, KvDistinct kv2 →
      (∀ c2, KvDistinct (putCookie kv2 ns c2)) ∧
      (∀ d2 p2 n2, KvDistinct (removeCookie kv2 ns d2 p2 n2)) ∧
      (∀ d2 p2, KvDistinct (removeCookies kv2 ns d2 p2)) ∧
      KvDistinct (removeAllCookies kv2 ns) ∧
      (∀ o2 c2, KvDistinct (updateCookie kv2 ns o2 c2))) := by
  refine ⟨kvDistinct_putCookie kv ns c' hdist, ?_, ?_, ?_⟩
  · rw [putCookie_eq_kvSet kv ns c' d p n htr, getAllCookies, getAllCookies,
      foldl_pushStep_eq, foldl_pushStep_eq, List.nil_append, List.nil_append]
    exact kvSet_enc_count ns (ns ++ [d, p, n]) c0 c' kv hdist hmem
  · rw [putCookie_eq_kvSet kv ns c' d p n htr]
    simp [findCookie, findCookieRun, kvGet_kvSet_self, SerVal.truthy,
      Cookie.fromJSON]
  · intro kv2 h2
    exact ⟨fun c2 => kvDistinct_putCookie kv2 ns c2 h2,
      fun d2 p2 n2 => kvDistinct_kvDelete kv2 _ h2,
      fun d2 p2 => kvDistinct_foldl_kvDelete _ kv2 h2,
      kvDistinct_foldl_kvDelete _ kv2 h2,
      fun o2 c2 => kvDistinct_putCookie kv2 ns c2 h2⟩

/-- C4 witness: replacing the `foo` fixture with an updated value in the
concrete store keeps the count and serves the new value. -/
theorem putCookie_collision_replaces_w :
    KvDistinct kvW ∧
    ((nsW ++ ["example.com", "/path", "foo"], SerVal.enc cookieW) ∈ kvW) ∧
    cookieTriple cookieW' = some ("example.com", "/path", "foo") ∧
    (getAllCookies (putCookie kvW nsW cookieW') nsW).length
      = (getAllCookies kvW nsW).length ∧
    findCookie (putCookie kvW nsW cookieW') nsW
      (some "example.com") (some "/path") (some "foo") = some cookieW' :=
  ⟨by decide, by decide, by decide,
   (putCookie_collision_replaces nsW kvW "example.com" "/path" "foo"
     cookieW cookieW' (by decide) (by decide) (by decide)).2.1,
   (putCookie_collision_replaces nsW kvW "example.com" "/path" "foo"
     cookieW cookieW' (by decide) (by decide) (by decide)).2.2.1⟩

/-- C5: `updateCookie(oldCookie, newCookie)` changes the state exactly as
`putCookie(newCookie)` does, ignoring the old cookie's identity entirely;
when the new cookie's triple differs from the old one's, any record stored
at the old triple key is left in place (duplicate-on-rename). -/
theorem updateCookie_ignores_old (ns : Key) (kv : Kv) (oldC newC : Cookie) :
    updateCookie kv ns oldC newC = putCookie kv ns newC ∧
    (∀ (d p n : String) (v : SerVal), cookieTriple oldC = some (d, p, n) →
      cookieTriple newC ≠ some (d, p, n) → (ns ++ [d, p, n], v) ∈ kv →
      (ns ++ [d, p, n], v) ∈ updateCookie kv ns oldC newC) := by
  refine ⟨rfl, ?_⟩
  intro d p n v htro htrn hmem
  show (ns ++ [d, p, n], v) ∈ putCookie kv ns newC
  cases htr2 : cookieTriple newC with
  | none => rw [putCookie_of_triple_none kv ns newC htr2]; exact hmem
  | some t =>
    rcases t with ⟨d', p', n'⟩
    rw [putCookie_eq_kvSet kv ns newC d' p' n' htr2]
    refine mem_kvSet_of_ne kv _ _ _ hmem ?_
    intro hkey
    rcases append_triple_inj ns d p n d' p' n' hkey with ⟨rfl, rfl, rfl⟩
    exact htrn htr2

/-- C5 witness: updating the `foo` fixture to a cookie with a different
triple leaves the old record in place. -/
theorem updateCookie_ignores_old_w :
    cookieTriple cookieW = some ("example.com", "/path", "foo") ∧
    cookieTriple cookieW2 ≠ some ("example.com", "/path", "foo") ∧
    ((nsW ++ ["example.com", "/path", "foo"], SerVal.enc cookieW) ∈ kvW) ∧
    ((nsW ++ ["example.com", "/path", "foo"], SerVal.enc cookieW)
      ∈ updateCookie kvW nsW cookieW cookieW2) :=
  ⟨by decide, by decide, by decide,
   (updateCookie_ignores_old nsW kvW cookieW cookieW2).2
     "example.com" "/path" "foo" (SerVal.enc cookieW)
     (by decide) (by decide) (by decide)⟩

/-- C6: `removeCookies(domain, path)` deletes exactly the records whose key
lies under the exact `ns ++ [domain, path]` region; a record at the same
domain but a different exact path, or at a different domain (sub-domains
included), is left untouched. -/
theorem removeCookies_exact_region (ns : Key) (kv : Kv) (d p : String) :
    (∀ e : Key × SerVal, e ∈ removeCookies kv ns d p ↔
      e ∈ kv ∧ (ns ++ [d, p]).isPrefixOf e.1 = false) ∧
    (∀ (p' n : String) (v : SerVal), p' ≠ p → (ns ++ [d, p', n], v) ∈ kv →
      (ns ++ [d, p', n], v) ∈ removeCookies kv ns d p) ∧
    (∀ (d' p' n : String) (v : SerVal), d' ≠ d → (ns ++ [d', p', n], v) ∈ kv →
      (ns ++ [d', p', n], v) ∈ removeCookies kv ns d p) := by
  have hmain : ∀ e : Key × SerVal, e ∈ removeCookies kv ns d p ↔
      e ∈ kv ∧ (ns ++ [d, p]).isPrefixOf e.1 = false := by
    intro e
    rw [removeCookies, mem_foldl_kvDelete]
    constructor
    · rintro ⟨he, hall⟩
      refine ⟨he, ?_⟩
      cases h2 : (ns ++ [d, p]).isPrefixOf e.1 with
      | false => rfl
      | true => exact absurd rfl (hall e ((mem_kvList kv _ e).mpr ⟨he, h2⟩))
    · rintro ⟨he, hnpre⟩
      refine ⟨he, ?_⟩
      intro x hx hkey
      rcases (mem_kvList kv _ x).mp hx with ⟨-, hprex⟩
      rw [hkey, hprex] at hnpre
      exact Bool.noConfusion hnpre
  refine ⟨hmain, ?_, ?_⟩
  · intro p' n v hne hmem
    refine (hmain _).mpr ⟨hmem, ?_⟩
    cases h2 : [d, p].isPrefixOf [d, p', n] with
    | false =>
      show (ns ++ [d, p]).isPrefixOf (ns ++ [d, p', n]) = false
      rw [isPrefixOf_append_iff ns [d, p] [d, p', n]]
      exact h2
    | true =>
      exact absurd ((pair_isPrefixOf_triple_iff d p d p' n).mp h2).2.symm hne
  · intro d' p' n v hne hmem
    refine (hmain _).mpr ⟨hmem, ?_⟩
    cases h2 : [d, p].isPrefixOf [d', p', n] with
    | false =>
      show (ns ++ [d, p]).isPrefixOf (ns ++ [d', p', n]) = false
      rw [isPrefixOf_append_iff ns [d, p] [d', p', n]]
      exact h2
    | true =>
      exact absurd ((pair_isPrefixOf_triple_iff d p d' p' n).mp h2).1.symm hne

/-- C6 witness: after deleting the `example.com` + `/path` region from the
concrete store, the record at the same domain but path `/different` and
the record at domain `example.org` both remain. -/
theorem removeCookies_exact_region_w :
    ("/different" ≠ ("/path" : String)) ∧
    ("example.org" ≠ ("example.com" : String)) ∧
    ((nsW ++ ["example.com", "/different", "baz"], SerVal.enc cookieW2) ∈ kvW) ∧
    ((nsW ++ ["example.org", "/path", "qux"], SerVal.enc cookieW3) ∈ kvW) ∧
    ((nsW ++ ["example.com", "/different", "baz"], SerVal.enc cookieW2)
      ∈ removeCookies kvW nsW "example.com" "/path") ∧
    ((nsW ++ ["example.org", "/path", "qux"], SerVal.enc cookieW3)
      ∈ removeCookies kvW nsW "example.com" "/path") :=
  ⟨by decide, by decide, by decide, by decide,
   (removeCookies_exact_region nsW kvW "example.com" "/path").2.1
     "/different" "baz" (SerVal.enc cookieW2) (by decide) (by decide),
   (removeCookies_exact_region nsW kvW "example.com" "/path").2.2
     "example.org" "/path" "qux" (SerVal.enc cookieW3) (by decide) (by decide)⟩

/-- C8: `removeCookie` removes at most the record at the exact triple key
and always succeeds: with no record at that key it is a no-op, and with an
existing record the subsequent `findCookie` on the triple resolves absent
and the `getAllCookies` count drops by exactly one. -/
theorem removeCookie_exact_idempotent (ns : Key) (kv : Kv) (d p n : String) :
    (∀ e : Key × SerVal,
      e ∈ removeCookie kv ns d p n ↔ e ∈ kv ∧ e.1 ≠ ns ++ [d, p, n]) ∧
    (ns ++ [d, p, n] ∉ kvKeys kv → removeCookie kv ns d p n = kv) ∧
    (∀ c0 : Cookie, KvDistinct kv → (ns ++ [d, p, n], SerVal.enc c0) ∈ kv →
      findCookie (removeCookie kv ns d p n) ns
        (some d) (some p) (some n) = none ∧
      (getAllCookies (removeCookie kv ns d p n) ns).length + 1
        = (getAllCookies kv ns).length) := by
  refine ⟨fun e => mem_kvDelete kv _ e, kvDelete_eq_of_not_mem kv _, ?_⟩
  intro c0 hdist hmem
  constructor
  · simp [findCookie, findCookieRun, removeCookie, kvGet_kvDelete_self]
  · rw [removeCookie, getAllCookies, getAllCookies, foldl_pushStep_eq,
      foldl_pushStep_eq, List.nil_append, List.nil_append]
    exact kvDelete_enc_count ns (ns ++ [d, p, n]) c0
      (isPrefixOf_append_self ns _) kv hdist hmem

/-- C8 witness: removing the `foo` fixture from the concrete store makes
its triple unreadable and drops the count by one. -/
theorem removeCookie_exact_idempotent_w :
    KvDistinct kvW ∧
    ((nsW ++ ["example.com", "/path", "foo"], SerVal.enc cookieW) ∈ kvW) ∧
    (nsW ++ ["example.com", "/missing", "nope"] ∉ kvKeys kvW) ∧
    removeCookie kvW nsW "example.com" "/missing" "nope" = kvW ∧
    findCookie (removeCookie kvW nsW "example.com" "/path" "foo") nsW
      (some "example.com") (some "/path") (some "foo") = none ∧
    (getAllCookies (removeCookie kvW nsW "example.com" "/path" "foo") nsW).length
      + 1 = (getAllCookies kvW nsW).length :=
  ⟨by decide, by decide, by decide,
   (removeCookie_exact_idempotent nsW kvW "example.com" "/missing" "nope").2.1
     (by decide),
   ((removeCookie_exact_idempotent nsW kvW "example.com" "/path" "foo").2.2
     cookieW (by decide) (by decide)).1,
   ((removeCookie_exact_idempotent nsW kvW "example.com" "/path" "foo").2.2
     cookieW (by decide) (by decide)).2⟩

/-- C9: the scan-based reads skip undecodable records silently: removing
every undecodable entry from the state changes neither the `findCookies`
result nor the `getAllCookies` result (so such records contribute nothing
and abort nothing), and every decodable record under the namespace still
appears in `getAllCookies`. -/
theorem scans_skip_undecodable
    (permute : String → Bool → Option (List String)) (kv : Kv) (ns : Key)
    (domain path : Option String) (allow : Bool) :
    (findCookiesRun permute (kv.filter decodableEntry) ns domain path allow).1
      = (findCookiesRun permute kv ns domain path allow).1 ∧
    getAllCookies (kv.filter decodableEntry) ns = getAllCookies kv ns ∧
    (∀ (k : Key) (c : Cookie), (k, SerVal.enc c) ∈ kv →
      ns.isPrefixOf k = true → c ∈ getAllCookies kv ns) := by
  refine ⟨?_, ?_, ?_⟩
  · cases domain with
    | none => rfl
    | some dd =>
      by_cases hdd : dd = ""
      · subst hdd; cases path <;> simp [findCookiesRun]
      · cases path with
        | none =>
          simp only [findCookiesRun, if_neg hdd]
          exact domainsFold_eq_of_chunks matchAllEntry _ kv ns
            (fun cd => filterMap_kvList_filter_dec matchAllEntry
              matchAllEntry_none_of_not_decodable kv (ns ++ [cd])) _ []
        | some p =>
          simp only [findCookiesRun, if_neg hdd]
          exact domainsFold_eq_of_chunks (pathEntry ns p) _ kv ns
            (fun cd => filterMap_kvList_filter_dec (pathEntry ns p)
              (pathEntry_none_of_not_decodable ns p) kv (ns ++ [cd])) _ []
  · rw [getAllCookies, getAllCookies, foldl_pushStep_eq, foldl_pushStep_eq,
      List.nil_append, List.nil_append]
    exact filterMap_kvList_filter_dec matchAllEntry
      matchAllEntry_none_of_not_decodable kv ns
  · intro k c hmem hpre
    rw [getAllCookies, foldl_pushStep_eq, List.nil_append]
    exact List.mem_filterMap.mpr ⟨(k, SerVal.enc c),
      (mem_kvList kv ns _).mpr ⟨hmem, hpre⟩,
      (matchAllEntry_eq_some _ c).mpr rfl⟩

/-- C9 witness: in the concrete store extended with an undecodable record,
dropping that record changes neither scan result, and the decodable `foo`
fixture is still returned. -/
theorem scans_skip_undecodable_w :
    ((["cookies", "example.com", "/path", "foo"], SerVal.enc cookieW) ∈ kvWJ) ∧
    (nsW.isPrefixOf ["cookies", "example.com", "/path", "foo"] = true) ∧
    cookieW ∈ getAllCookies kvWJ nsW ∧
    getAllCookies (kvWJ.filter decodableEntry) nsW = getAllCookies kvWJ nsW ∧
    (findCookiesRun permuteW (kvWJ.filter decodableEntry) nsW
        (some "example.com") (some "/path") false).1
      = (findCookiesRun permuteW kvWJ nsW
          (some "example.com") (some "/path") false).1 :=
  ⟨by decide, by decide,
   (scans_skip_undecodable permuteW kvWJ nsW
     (some "example.com") (some "/path") false).2.2
     ["cookies", "example.com", "/path", "foo"] cookieW
     (by decide) (by decide),
   (scans_skip_undecodable permuteW kvWJ nsW
     (some "example.com") (some "/path") false).2.1,
   (scans_skip_undecodable permuteW kvWJ nsW
     (some "example.com") (some "/path") false).1⟩

/-- C10: the store's absence checks are null-only, not emptiness checks: a
cookie whose identity fields are concrete strings — the empty string
included — is persisted by `putCookie` at its triple key and is retrievable
by `findCookie` with the same arguments, and only a null field makes the
write a no-op; yet `findCookies` on an empty-string domain always resolves
the empty list, so such a cookie is unreachable by domain-matched
retrieval. -/
theorem emptyString_persisted_unmatchable
    (permute : String → Bool → Option (List String)) (ns : Key) (kv : Kv)
    (c : Cookie) (d p n : String) (allow : Bool)
    (htr : cookieTriple c = some (d, p, n)) :
    kvGet (putCookie kv ns c) (ns ++ [d, p, n]) = some (SerVal.enc c) ∧
    findCookie (putCookie kv ns c) ns (some d) (some p) (some n) = some c ∧
    (∀ (kv2 : Kv) (path : Option String),
      findCookiesRun permute kv2 ns (some "") path allow = ([], [])) ∧
    (∀ c2 : Cookie, cookieTriple c2 = none → putCookie kv ns c2 = kv) := by
  refine ⟨?_, ?_, ?_, ?_⟩
  · rw [putCookie_eq_kvSet kv ns c d p n htr]
    exact kvGet_kvSet_self kv _ _
  · rw [putCookie_eq_kvSet kv ns c d p n htr]
    simp [findCookie, findCookieRun, kvGet_kvSet_self, SerVal.truthy,
      Cookie.fromJSON]
  · intro kv2 path; cases path <;> simp [findCookiesRun]
  · exact fun c2 => putCookie_of_triple_none kv ns c2

/-- C10 witness: the all-empty-string cookie is stored and read back, while
the empty-domain `findCookies` resolves nothing. -/
theorem emptyString_persisted_unmatchable_w :
    cookieTriple cookieWE = some ("", "", "") ∧
    kvGet (putCookie kvW nsW cookieWE) (nsW ++ ["", "", ""])
      = some (SerVal.enc cookieWE) ∧
    findCookie (putCookie kvW nsW cookieWE) nsW
      (some "") (some "") (some "") = some cookieWE ∧
    findCookiesRun permuteW kvW nsW (some "") (some "/path") false
      = ([], []) :=
  ⟨by decide,
   (emptyString_persisted_unmatchable permuteW nsW kvW cookieWE "" "" ""
     false (by decide)).1,
   (emptyString_persisted_unmatchable permuteW nsW kvW cookieWE "" "" ""
     false (by decide)).2.1,
   (emptyString_persisted_unmatchable permuteW nsW kvW cookieWE "" "" ""
     false (by decide)).2.2.1 kvW (some "/path")⟩

/-- C1: with a concrete request path, a stored cookie record reached by the
domain scans of `findCookies` appears in the result exactly when its stored
path path-matches the request path under RFC 6265 §5.1.4 (equal, or a
proper leading part ending in `/` or followed by `/` in the request path);
with a null request path, every record of the scanned domains appears. -/
theorem findCookies_pathMatch_iff
    (permute : String → Bool → Option (List String)) (kv : Kv) (ns : Key)
    (d : String) (allow : Bool) (c : Cookie)
    (hd : d ≠ "") (hwf : WfKv ns kv) :
    (∀ p : String,
      c ∈ (findCookiesRun permute kv ns (some d) (some p) allow).1 ↔
        ∃ cd cp n : String, cd ∈ (permute d allow).getD [d] ∧
          (ns ++ [cd, cp, n], SerVal.enc c) ∈ kv ∧ pathMatch p cp = true) ∧
    (c ∈ (findCookiesRun permute kv ns (some d) none allow).1 ↔
      ∃ cd cp n : String, cd ∈ (permute d allow).getD [d] ∧
        (ns ++ [cd, cp, n], SerVal.enc c) ∈ kv) := by
  constructor
  · intro p
    rw [show (findCookiesRun permute kv ns (some d) (some p) allow).1
          = ((permute d allow).getD [d]).foldl
              (fun acc cd => (kvList kv (ns ++ [cd])).foldl
                (pushStep (pathEntry ns p)) acc) [] by
        simp [findCookiesRun, hd]]
    rw [mem_domainsFold]
    constructor
    · rintro (hnil | ⟨cd, hcd, e, he, hsel⟩)
      · exact absurd hnil (List.not_mem_nil c)
      · rcases kvList_entry_shape kv ns cd hwf e he with ⟨cp, n, hkey⟩
        rcases (pathEntry_eq_some ns p e c).mp hsel with ⟨henc, hpm⟩
        refine ⟨cd, cp, n, hcd, ?_, ?_⟩
        · have heq : e = (ns ++ [cd, cp, n], SerVal.enc c) := by
            rcases e with ⟨ek, ev⟩
            simp only at hkey henc
            rw [hkey, henc]
          rw [← heq]
          exact ((mem_kvList kv _ e).mp he).1
        · rw [hkey, cookiePathOf_triple] at hpm
          exact hpm
    · rintro ⟨cd, cp, n, hcd, hmem, hpm⟩
      refine Or.inr ⟨cd, hcd, (ns ++ [cd, cp, n], SerVal.enc c), ?_, ?_⟩
      · refine (mem_kvList kv _ _).mpr ⟨hmem, ?_⟩
        show (ns ++ [cd]).isPrefixOf (ns ++ [cd, cp, n]) = true
        rw [show (ns ++ [cd, cp, n] : Key) = (ns ++ [cd]) ++ [cp, n] by simp]
        exact isPrefixOf_append_self _ _
      · refine (pathEntry_eq_some ns p _ c).mpr ⟨rfl, ?_⟩
        show pathMatch p (cookiePathOf ns (ns ++ [cd, cp, n])) = true
        rw [cookiePathOf_triple]
        exact hpm
  · rw [show (findCookiesRun permute kv ns (some d) none allow).1
          = ((permute d allow).getD [d]).foldl
              (fun acc cd => (kvList kv (ns ++ [cd])).foldl
                (pushStep matchAllEntry) acc) [] by
        simp [findCookiesRun, hd]]
    rw [mem_domainsFold]
    constructor
    · rintro (hnil | ⟨cd, hcd, e, he, hsel⟩)
      · exact absurd hnil (List.not_mem_nil c)
      · rcases kvList_entry_shape kv ns cd hwf e he with ⟨cp, n, hkey⟩
        have henc := (matchAllEntry_eq_some e c).mp hsel
        refine ⟨cd, cp, n, hcd, ?_⟩
        have heq : e = (ns ++ [cd, cp, n], SerVal.enc c) := by
          rcases e with ⟨ek, ev⟩
          simp only at hkey henc
          rw [hkey, henc]
        rw [← heq]
        exact ((mem_kvList kv _ e).mp he).1
    · rintro ⟨cd, cp, n, hcd, hmem⟩
      refine Or.inr ⟨cd, hcd, (ns ++ [cd, cp, n], SerVal.enc c), ?_, ?_⟩
      · refine (mem_kvList kv _ _).mpr ⟨hmem, ?_⟩
        show (ns ++ [cd]).isPrefixOf (ns ++ [cd, cp, n]) = true
        rw [show (ns ++ [cd, cp, n] : Key) = (ns ++ [cd]) ++ [cp, n] by simp]
        exact isPrefixOf_append_self _ _
      · exact (matchAllEntry_eq_some _ c).mpr rfl

theorem wfKvW : WfKv nsW kvW := by
  intro e he _
  simp only [kvW, List.mem_cons, List.not_mem_nil, or_false] at he
  rcases he with rfl | rfl | rfl
  · exact ⟨"example.com", "/path", "foo", rfl⟩
  · exact ⟨"example.com", "/different", "baz", rfl⟩
  · exact ⟨"example.org", "/path", "qux", rfl⟩

/-- C1 witness: in the concrete store, membership of the `foo` fixture in a
`findCookies` result is characterized by path-matching for request path
`/path`, and by bare reachability for a null path. -/
theorem findCookies_pathMatch_iff_w :
    ("example.com" ≠ ("" : String)) ∧ WfKv nsW kvW ∧
    (cookieW ∈ (findCookiesRun permuteW kvW nsW (some "example.com")
        (some "/path") false).1 ↔
      ∃ cd cp n : String,
        cd ∈ (permuteW "example.com" false).getD ["example.com"] ∧
        (nsW ++ [cd, cp, n], SerVal.enc cookieW) ∈ kvW ∧
        pathMatch "/path" cp = true) ∧
    (cookieW ∈ (findCookiesRun permuteW kvW nsW (some "example.com")
        none false).1 ↔
      ∃ cd cp n : String,
        cd ∈ (permuteW "example.com" false).getD ["example.com"] ∧
        (nsW ++ [cd, cp, n], SerVal.enc cookieW) ∈ kvW) :=
  ⟨by decide, wfKvW,
   (findCookies_pathMatch_iff permuteW kvW nsW "example.com" false cookieW
     (by decide) wfKvW).1 "/path",
   (findCookies_pathMatch_iff permuteW kvW nsW "example.com" false cookieW
     (by decide) wfKvW).2⟩
